import Mathlib

/-!
Verification of the GQE compression engine ("The Architect" repository).

Shallow embedding of the components under `src/include/gqe` and
`src/Examples/gqe_kernel.hpp`:

* `CircularRAC` (include/gqe/circular_rac.hpp) — the 55-bit arithmetic coder;
* `GrainAwareChunker` (Examples/gqe_kernel.hpp, identical `find_boundary`
  in include/gqe/chunker.hpp) — frame chunking;
* `GeometricParallelMixer`, `FibonacciHasher`, `ContextTable`, and the
  Examples `CircularRAC`/`GQECompressor` (Examples/gqe_kernel.hpp);
* `BekensteinArena`/`EntropyFreeScope` (include/gqe/bekenstein_arena.hpp).

Machine integers are modelled as `Nat` with explicit reductions mod `2 ^ 64`
(uint64), `2 ^ 32` (uint32) and `256` (uint8) at the points where the C++
performs wrapping arithmetic.  The only floating-point code entering any
theorem is modelled exactly where used (see the comments at `quantProb`,
`PHI_U64` and the arena's coherence factor).
-/

namespace GQE

/-- Word modulus of the C++ `uint64_t` arithmetic. -/
def M64 : ℕ := 2 ^ 64

/-- `RANGE_BITS` from circular_rac.hpp line 18. -/
def RANGE_BITS : ℕ := 55

/-- `RANGE_MASK = (1 << 55) - 1` (circular_rac.hpp line 19). -/
def RANGE_MASK : ℕ := 2 ^ RANGE_BITS - 1

/-- `HALF_RANGE = 1 << 54` (circular_rac.hpp line 20). -/
def HALF_RANGE : ℕ := 2 ^ (RANGE_BITS - 1)

/-- `FIRST_QUARTER = 1 << 53` (circular_rac.hpp line 21). -/
def FIRST_QUARTER : ℕ := 2 ^ (RANGE_BITS - 2)

/-- `THIRD_QUARTER = FIRST_QUARTER * 3` (circular_rac.hpp line 22). -/
def THIRD_QUARTER : ℕ := FIRST_QUARTER * 3

/-- State of the include/gqe `CircularRAC` coder: interval bounds `low_`,
`high_`, the pending-bit counter `underflow_count_`, the byte vector
`output_`, and the bit packer `current_byte_`/`bit_count_`. -/
structure RacState where
  low : ℕ
  high : ℕ
  underflowCount : ℕ
  output : List ℕ
  currentByte : ℕ
  bitCount : ℕ
deriving Repr, DecidableEq

/-- `CircularRAC::reset` (circular_rac.hpp lines 33-40). -/
def racReset : RacState :=
  { low := 0, high := RANGE_MASK, underflowCount := 0,
    output := [], currentByte := 0, bitCount := 0 }

/-- `CircularRAC::write_bit` (circular_rac.hpp lines 140-148):
`current_byte_ = (current_byte_ << 1) | (bit & 1)` in `uint8_t`, flushing a
byte to `output_` every 8 bits. -/
def writeBit (s : RacState) (bit : ℕ) : RacState :=
  let cb := (s.currentByte * 2 + bit % 2) % 256
  if s.bitCount + 1 = 8 then
    { s with output := s.output ++ [cb], currentByte := 0, bitCount := 0 }
  else
    { s with currentByte := cb, bitCount := s.bitCount + 1 }

/-- The `while (underflow_count_ > 0) write_bit(!bit);` loop inside
renormalization, unrolled on the number of pending bits. -/
def writeBitRep (s : RacState) (bit : ℕ) : ℕ → RacState
  | 0 => s
  | n + 1 => writeBitRep (writeBit s bit) bit n

/-- Interval narrowing of `CircularRAC::encode_range`
(circular_rac.hpp lines 96-107): 64-bit products and differences wrap mod
`2 ^ 64`, the results are masked with `RANGE_MASK`, and a collapsed interval
is widened to `new_low + 1`.  Returns `(new_low, new_high)`. -/
def rangeNarrow (low high lc hc totalSum : ℕ) : ℕ × ℕ :=
  let range := (high + (M64 - low) + 1) % M64
  let nh := (low + range * hc % M64 / totalSum + (M64 - 1)) % M64 % 2 ^ 55
  let nl := (low + range * lc % M64 / totalSum) % M64 % 2 ^ 55
  if nh ≤ nl then (nl, nl + 1) else (nl, nh)

/-- One pass of the renormalization loop of `encode_range`
(circular_rac.hpp lines 113-133), fuelled: each iteration either emits the
agreed top bit (plus pending underflow bits), or handles the middle-straddle
underflow case, then shifts `low`/`high` left inside the 55-bit window.
The loop always exits within 55 iterations (the interval width strictly
grows until it exceeds `FIRST_QUARTER * 2`, see `racRenorm_guard_false`),
so fuel 64 is an exact model of the C++ loop. -/
def racRenorm : ℕ → RacState → RacState
  | 0, s => s
  | fuel + 1, s =>
    if s.low / HALF_RANGE % 2 = s.high / HALF_RANGE % 2 then
      let bit := s.low / HALF_RANGE % 2
      let s1 := writeBit s bit
      let s2 := writeBitRep s1 (1 - bit) s1.underflowCount
      racRenorm fuel
        { s2 with underflowCount := 0,
                  low := s2.low * 2 % 2 ^ 55,
                  high := s2.high * 2 % 2 ^ 55 + 1 }
    else if FIRST_QUARTER ≤ s.low ∧ s.high < THIRD_QUARTER then
      racRenorm fuel
        { s with underflowCount := s.underflowCount + 1,
                 low := (s.low + (M64 - FIRST_QUARTER)) % M64 * 2 % 2 ^ 55,
                 high := (s.high + (M64 - FIRST_QUARTER)) % M64 * 2 % 2 ^ 55 + 1 }
    else s

/-- `CircularRAC::encode_range` (circular_rac.hpp lines 90-134): the guard
`if (total_sum == 0) return;`, then narrowing, then renormalization. -/
def encodeRange (s : RacState) (lc hc totalSum : ℕ) : RacState :=
  if totalSum = 0 then s
  else
    let p := rangeNarrow s.low s.high lc hc totalSum
    racRenorm 64 { s with low := p.1, high := p.2 }

/-- `CircularRAC::flush` (circular_rac.hpp lines 150-158): pad and emit the
partial byte if any, then always push the top 8 bits of `low_`. -/
def racFlush (s : RacState) : RacState :=
  let s1 :=
    if 0 < s.bitCount then
      { s with output := s.output ++ [s.currentByte * 2 ^ (8 - s.bitCount) % 256],
               currentByte := 0, bitCount := 0 }
    else s
  { s1 with output := s1.output ++ [s1.low / 2 ^ (RANGE_BITS - 8) % 256] }

/-- `CircularRAC::get_output` (circular_rac.hpp lines 160-163): mutates the
coder by calling `flush()` and returns the stored output; modelled as the
pair (returned bytes, coder state after the call). -/
def racGetOutput (s : RacState) : List ℕ × RacState :=
  ((racFlush s).output, racFlush s)

/-- Grain-boundary bytes `boundaries_` of `GrainAwareChunker`
(Examples/gqe_kernel.hpp lines 501-503, identical in include/gqe/chunker.hpp):
space, newline, carriage return, tab, period, comma, semicolon, colon,
exclamation mark, question mark, hyphen, underscore. -/
def boundaryBytes : List ℕ := [32, 10, 13, 9, 46, 44, 59, 58, 33, 63, 45, 95]

/-- `GrainAwareChunker::is_boundary` (Examples/gqe_kernel.hpp lines 567-572). -/
def isBoundaryByte (b : ℕ) : Bool := boundaryBytes.contains b

/-- Forward search loop of `find_boundary` (Examples/gqe_kernel.hpp lines
519-524): scan indices `i, i+1, …, limit-1` and return the first index
holding a boundary byte.  Out-of-range reads never happen in the C++
(`limit ≤ data.size()` at every call site); `getD _ 0` mirrors `data[i]`. -/
def fwdScanAux (data : List ℕ) : ℕ → ℕ → Option ℕ
  | 0, _ => none
  | n + 1, i =>
    if isBoundaryByte (data.getD i 0) then some i
    else fwdScanAux data n (i + 1)

/-- The forward loop runs exactly `limit - i` iterations, which is the
structural fuel of `fwdScanAux`. -/
def fwdScan (data : List ℕ) (limit i : ℕ) : Option ℕ :=
  fwdScanAux data (limit - i) i

/-- Backward search loop of `find_boundary` (Examples/gqe_kernel.hpp lines
527-532): scan indices `i, i-1, …, bl` downward and return the first index
holding a boundary byte.  The C++ guard `i < target_end` stops the `size_t`
decrement from wrapping below zero, which is the `i = 0` case here. -/
def bwdScanAux (data : List ℕ) : ℕ → ℕ → Option ℕ
  | 0, _ => none
  | n + 1, i =>
    if isBoundaryByte (data.getD i 0) then some i
    else bwdScanAux data n (i - 1)

/-- The backward loop runs exactly `i - bl + 1` iterations when `bl ≤ i`
and none otherwise; when `bl = 0` the fuelled recursion may re-inspect
index 0 after the `size_t` floor, which cannot change the result because
that index was already rejected. -/
def bwdScan (data : List ℕ) (bl i : ℕ) : Option ℕ :=
  if bl ≤ i then bwdScanAux data (i - bl + 1) i else none

/-- `GrainAwareChunker::find_boundary` (Examples/gqe_kernel.hpp lines
515-536, byte-identical logic in include/gqe/chunker.hpp lines 26-40):
forward search over a 4096-byte window clipped to the data size, then
backward search over a 4096-byte window clipped at offset 0, then the raw
`target_end` as emergency fallback.  A found boundary at index `i` yields
`i + 1` ("include boundary"). -/
def findBoundary (data : List ℕ) (targetEnd : ℕ) : ℕ :=
  let fwdLimit := min (targetEnd + 4096) data.length
  match fwdScan data fwdLimit targetEnd with
  | some i => i + 1
  | none =>
    let bwdLimit := if 4096 < targetEnd then targetEnd - 4096 else 0
    if targetEnd = 0 then targetEnd
    else
      match bwdScan data bwdLimit (targetEnd - 1) with
      | some i => i + 1
      | none => targetEnd

/-- Loop body iteration of `GrainAwareChunker::chunk_data`
(Examples/gqe_kernel.hpp lines 541-564), fuelled.  The C++ `while (start <
total_size)` loop computes `end` from `start` alone and continues at
`start = end`; each emitted frame is the pair `(start, end)`.  The next
`start` is a function of the current `start` only, so a run that has not
stopped within `data.length + 1` iterations has revisited some `start`
value and therefore loops forever; `none` models exactly that divergence
(see `chunkData`). -/
def chunkSteps (cs : ℕ) (data : List ℕ) : ℕ → ℕ → Option (List (ℕ × ℕ))
  | 0, start => if data.length ≤ start then some [] else none
  | fuel + 1, start =>
    if data.length ≤ start then some []
    else
      let e := if data.length ≤ start + cs then data.length
               else findBoundary data (start + cs)
      (chunkSteps cs data fuel e).map (fun rest => (start, e) :: rest)

/-- `GrainAwareChunker::chunk_data` (Examples/gqe_kernel.hpp lines 541-564)
with fuel `data.length + 1`.  This fuel makes the model exact: a
terminating C++ run visits pairwise distinct `start` values, all below
`data.length`, so it performs at most `data.length` iterations; conversely
if the model returns `none` the deterministic loop has revisited a `start`
value and the C++ runs forever. -/
def chunkData (cs : ℕ) (data : List ℕ) : Option (List (ℕ × ℕ)) :=
  chunkSteps cs data (data.length + 1) 0

/-- Concrete input for the chunker claims: `"abc "` followed by sixteen
copies of the letter `x` (twenty bytes, single boundary byte at index 3). -/
def chunkBugInput : List ℕ := [97, 98, 99, 32] ++ List.replicate 16 120

/-- Hash multiplier `PHI_U64` of `FibonacciHasher` (Examples/gqe_kernel.hpp
line 228): `static_cast<uint64_t>(PHI * (1ULL << 32))` where `PHI` is the
`float` nearest the golden ratio, namely `13573053 / 2 ^ 23` (24-bit
mantissa).  The float product with the exact power `2 ^ 32` is
`13573053 * 2 ^ 9 = 6949403136`, representable exactly, so the truncating
cast yields this integer. -/
def PHI_U64 : ℕ := 6949403136

/-- `FibonacciHasher::hash` (Examples/gqe_kernel.hpp lines 232-236):
`uint64_t h = (uint64_t)key * PHI_U64` (wrapping), then
`(uint32_t)(h >> 32) % table_size`. -/
def fibHash (key tableSize : ℕ) : ℕ :=
  key * PHI_U64 % 2 ^ 64 / 2 ^ 32 % tableSize

/-- FNV-1a hash of a context window (Examples/gqe_kernel.hpp lines
331-335) in wrapping `uint32_t` arithmetic. -/
def fnvHash (window : List ℕ) : ℕ :=
  window.foldl (fun h b => (h ^^^ b) * 16777619 % 2 ^ 32) 2166136261

/-- `CONTEXT_SIZES[] = {1, 2, 4, 8}` (Examples/gqe_kernel.hpp line 71). -/
def contextSize (ctx : ℕ) : ℕ := [1, 2, 4, 8].getD ctx 0

/-- Per-position context hash computed by
`GeometricParallelMixer::vectorized_hash` (Examples/gqe_kernel.hpp lines
313-339): positions with fewer than `ctx_size` preceding bytes get the
"no context" hash 0; otherwise the FNV-1a hash of the window of the
`ctx_size` bytes before position `i`, dispersed by `FibonacciHasher::hash`
into the table space 16384. -/
def hashAt (data : List ℕ) (ctx i : ℕ) : ℕ :=
  if i < contextSize ctx then 0
  else fibHash (fnvHash ((data.drop (i - contextSize ctx)).take (contextSize ctx))) 16384

/-- Raw count accumulated by `GeometricParallelMixer::train`
(Examples/gqe_kernel.hpp lines 395-403): the number of positions of `data`
whose context hash for order `ctx` is `h` and whose byte is `b`. -/
def countsAt (data : List ℕ) (ctx h b : ℕ) : ℕ :=
  ((List.range data.length).filter
    (fun i => hashAt data ctx i == h && data.getD i 0 == b)).length

/-- Total observation count of a table entry in `train`
(Examples/gqe_kernel.hpp lines 408-409): every observed byte is below 256,
so summing the 256 per-symbol counters counts all positions hashed to `h`. -/
def totalAt (data : List ℕ) (ctx h : ℕ) : ℕ :=
  ((List.range 256).map (fun b => countsAt data ctx h b)).sum

/-- Quantization of one raw count in `train` (Examples/gqe_kernel.hpp lines
414-416): the C++ computes `(uint8_t)(((count + 1.0f) / (total + 256.0f)) *
255.0f)`, i.e. the truncation of `255 * (count + 1) / (total + 256)`.  The
`Nat` floor-division agrees with the float computation at every input used
in the theorems below: for `count = 0` the float value is strictly below 1
for every total (relative rounding error below `2 ^ -22` against a margin
of at least `1/256`), and the concrete small counts evaluated here are far
from rounding boundaries. -/
def quantProb (c totalSum : ℕ) : ℕ := 255 * (c + 1) / (totalSum + 256)

/-- State of the four `ContextTable<16384>` tables of
`GeometricParallelMixer`: `tbl ctx h` is `some` of the stored 256-entry
probability row exactly when the entry is valid with matching key
(`ContextTable::lookup`, Examples/gqe_kernel.hpp lines 290-293; `update`
always stores `key = hash`, so validity is the only condition). -/
structure MixerTables where
  tbl : ℕ → ℕ → Option (ℕ → ℕ)

/-- Fresh tables: every entry invalid (`ContextTable::reset`). -/
def initTables : MixerTables := ⟨fun _ _ => none⟩

/-- `GeometricParallelMixer::train` (Examples/gqe_kernel.hpp lines
390-422): accumulate raw counts for every position of `data`, then
overwrite every entry with positive total by the quantized Laplace row;
entries with no observations keep their previous contents. -/
def trainTables (t : MixerTables) (data : List ℕ) : MixerTables :=
  ⟨fun ctx h =>
    if 0 < totalAt data ctx h then
      some (fun b => quantProb (countsAt data ctx h b) (totalAt data ctx h))
    else t.tbl ctx h⟩

/-- Mixed probability of symbol `b` at position `i` computed by
`GeometricParallelMixer::predict_batch` (Examples/gqe_kernel.hpp lines
349-370): for each of the four context orders, add the fixed-point product
`(probs[b] * weight) >> 8` of a valid entry (all weights are 64), or the
raw weight 64 for a missing entry, accumulated in a wrapping `uint8_t`. -/
def mixedProbs (t : MixerTables) (data : List ℕ) (i b : ℕ) : ℕ :=
  (List.range 4).foldl
    (fun acc ctx =>
      (acc + match t.tbl ctx (hashAt data ctx i) with
        | some probs => probs b * 64 / 256
        | none => 64) % 256) 0

/-- Rank of the actual byte at position `i` (`predict_batch`,
Examples/gqe_kernel.hpp lines 372-385): the number of symbols with strictly
larger mixed probability, plus ties at smaller symbol values. -/
def rankOf (t : MixerTables) (data : List ℕ) (i : ℕ) : ℕ :=
  ((List.range 256).filter (fun j =>
      mixedProbs t data i (data.getD i 0) < mixedProbs t data i j ||
      (mixedProbs t data i j == mixedProbs t data i (data.getD i 0) &&
        decide (j < data.getD i 0)))).length

/-- State of the Examples `CircularRAC` (Examples/gqe_kernel.hpp lines
461-488): 64-bit `low_`/`high_` and the output byte vector (each
renormalization step pushes one 0/1 byte). -/
structure ExRacState where
  low : ℕ
  high : ℕ
  output : List ℕ
deriving Repr, DecidableEq

/-- Constructor state of the Examples coder: `low_ = 0`,
`high_ = 0xFFFFFFFFFFFFFFFF`. -/
def exRacInit : ExRacState := ⟨0, 2 ^ 64 - 1, []⟩

/-- Renormalization loop of `CircularRAC::encode` (Examples/gqe_kernel.hpp
lines 477-483): while the top bits of `low_` and `high_` agree
(`(low ^ high) < 2 ^ 63`), push the top bit of `low_` as one output byte
and shift.  The xor strictly grows towards `2 ^ 64 - 1` under the shift, so
the loop always exits within 64 iterations and fuel 64 models it exactly. -/
def exRenorm : ℕ → ExRacState → ExRacState
  | 0, s => s
  | fuel + 1, s =>
    if s.low ^^^ s.high < 2 ^ 63 then
      exRenorm fuel
        ⟨s.low * 2 % 2 ^ 64, s.high * 2 % 2 ^ 64 + 1,
         s.output ++ [s.low / 2 ^ 63]⟩
    else s

/-- `CircularRAC::encode(uint32_t symbol, uint32_t total_range)` of the
Examples kernel (Examples/gqe_kernel.hpp lines 470-484), in wrapping
`uint64_t` arithmetic: note that from the constructor state the range
`high_ - low_ + 1` wraps to 0, so `symbol_range = 0` and the state never
changes. -/
def exRacEncode (s : ExRacState) (symbol totalRange : ℕ) : ExRacState :=
  let range := (s.high + (M64 - s.low) + 1) % M64
  let symbolRange := range / totalRange
  let nh := (s.low + (symbol + 1) * symbolRange % M64 + (M64 - 1)) % M64
  let nl := (s.low + symbol * symbolRange) % M64
  exRenorm 64 ⟨nl, nh, s.output⟩

/-- `HORIZON_FRAME_SIZE = 233 * 1024` (Examples/gqe_kernel.hpp line 69). -/
def HORIZON_FRAME_SIZE : ℕ := 233 * 1024

/-- Per-chunk body of `GQECompressor::compress` (Examples/gqe_kernel.hpp
lines 594-610): train the mixer on the chunk, compute the rank of every
position with the freshly trained tables (`predict_batch`), then encode
each rank against the uniform total 256.  The arena allocations made by
`vectorized_hash`/`compress` only provide scratch storage for these
values and are elided; for the inputs considered they are far below the
256 KiB `BEKENSTEIN_BUFFER`, so no `bad_alloc` path is reachable. -/
def exProcessChunk (st : MixerTables × ExRacState) (chunk : List ℕ) :
    MixerTables × ExRacState :=
  let t2 := trainTables st.1 chunk
  let ranks := (List.range chunk.length).map (fun i => rankOf t2 chunk i)
  (t2, ranks.foldl (fun r k => exRacEncode r k 256) st.2)

/-- `GQECompressor::compress` of the Examples kernel
(Examples/gqe_kernel.hpp lines 590-613): chunk the input with the
grain-aware chunker at `HORIZON_FRAME_SIZE`, process each chunk, and return
the coder's output (`get_output` of the Examples coder performs no flush).
`none` models a diverging chunker loop, which does not occur for the
inputs considered. -/
def exCompress (data : List ℕ) : Option (List ℕ) :=
  match chunkData HORIZON_FRAME_SIZE data with
  | none => none
  | some frames =>
    some ((frames.foldl
      (fun st fr => exProcessChunk st ((data.drop fr.1).take (fr.2 - fr.1)))
      (initTables, exRacInit)).2.output)

/-- Inputs for the causality claim: two eight-byte sequences agreeing on
their first byte and differing from position 1 on. -/
def c4A : List ℕ := [5, 0, 0, 0, 0, 0, 0, 0]

/-- Second causality input, agreeing with `c4A` on the first byte. -/
def c4B : List ℕ := [5, 6, 6, 6, 6, 6, 6, 6]

/-- `CACHE_LINE_SIZE = 64` (constants.hpp line 58). -/
def CACHE_LINE_SIZE : ℕ := 64

/-- `BekensteinArena::align_to_cache_line` (bekenstein_arena.hpp lines
177-179): `(size + 63) & ~63`, i.e. rounding up to a multiple of 64. -/
def alignToCacheLine (n : ℕ) : ℕ :=
  (n + (CACHE_LINE_SIZE - 1)) / CACHE_LINE_SIZE * CACHE_LINE_SIZE

/-- `NEWTON_G = 6.67430e-11` (constants.hpp line 62).  The C++ `double`
constants and arithmetic of the arena are modelled as exact real numbers;
every comparison entering a theorem below holds with a margin of many
orders of magnitude, far beyond double rounding error. -/
noncomputable def NEWTON_G : ℝ := 6.67430e-11

/-- `ENTROPY_DENSITY_FACTOR = 1 / (8 π G)` (constants.hpp line 65). -/
noncomputable def ENTROPY_DENSITY_FACTOR : ℝ := 1 / (8 * Real.pi * NEWTON_G)

/-- Entropy density computed by `update_holographic_bounds`
(bekenstein_arena.hpp lines 184-192):
`ENTROPY_DENSITY_FACTOR * pow(total_allocated, 2.0/3.0)`. -/
noncomputable def entropyDensity (volume : ℝ) : ℝ :=
  ENTROPY_DENSITY_FACTOR * volume ^ ((2 : ℝ) / 3)

/-- Coherence factor stored by `update_holographic_bounds`
(bekenstein_arena.hpp line 191): `1 / (1 + entropy_density)`.  The stat is
recomputed from scratch on every allocation and is a pure function of
`total_allocated` at that moment (`refresh_holographic_state` decays only
the `entropy_density` stat between allocations and never writes
`coherence_factor`); the constructor leaves it at `1.0`, which is
`coherenceFactor 0`. -/
noncomputable def coherenceFactor (totalAllocated : ℕ) : ℝ :=
  1 / (1 + entropyDensity totalAllocated)

/-- Claim-relevant state of `BekensteinArena` (bekenstein_arena.hpp lines
57-60): the running `total_allocated` stat and the `entropy_free_mode_`
flag.  The block list is elided: `allocate` grows it on demand and always
finds room, so it never influences whether the entropy-free check throws. -/
structure ArenaState where
  totalAllocated : ℕ
  entropyFreeMode : Bool
deriving Repr, DecidableEq

/-- The freshly constructed arena (bekenstein_arena.hpp lines 67-73). -/
def arenaInit : ArenaState := ⟨0, false⟩

/-- The single error the arena model can raise: the
`std::runtime_error("CRITICAL: Memory allocation during entropy-free
compression loop!")` of `allocate`. -/
inductive ArenaError where
  | entropyFreeViolation
deriving Repr, DecidableEq

/-- `BekensteinArena::allocate` (bekenstein_arena.hpp lines 83-115): throw
if `entropy_free_mode_` is set, otherwise bump `total_allocated` by the
cache-line aligned request (growing a new block when needed, which always
succeeds) and recompute the holographic stats. -/
def arenaAllocate (s : ArenaState) (bytes : ℕ) : Except ArenaError ArenaState :=
  if s.entropyFreeMode then .error .entropyFreeViolation
  else .ok ⟨s.totalAllocated + alignToCacheLine bytes, s.entropyFreeMode⟩

open Classical in
/-- `EntropyFreeScope::EntropyFreeScope` (bekenstein_arena.hpp lines
216-223): the guard saves `was_in_compression_mode_ =
(arena.get_stats().coherence_factor < 0.9)` — a "heuristic" — and calls
`enter_compression_mode()` (which sets `entropy_free_mode_ = true`) only
when that saved flag is false.  Returns the arena state while the guard is
alive together with the saved flag. -/
noncomputable def scopeEnter (s : ArenaState) : ArenaState × Bool :=
  if coherenceFactor s.totalAllocated < 9 / 10 then (s, true)
  else ({ s with entropyFreeMode := true }, false)

/-- Coder states reachable from `reset()` by `encode_range` calls with
positive distribution total — the trace semantics of the claim about the
interval invariant. -/
inductive RacReachable : RacState → Prop where
  | reset : RacReachable racReset
  | step (s : RacState) (lc hc totalSum : ℕ) (hs : RacReachable s)
      (ht : 0 < totalSum) : RacReachable (encodeRange s lc hc totalSum)

/-- Interval shape actually preserved by the coder: the interval is
nonempty, and `high` stays below the mask except for the single overflow
shape `(RANGE_MASK, RANGE_MASK + 1)` produced when the collapse clamp
fires with `new_low = RANGE_MASK`. -/
def RacBounded (s : RacState) : Prop :=
  s.low < s.high ∧
    (s.high ≤ RANGE_MASK ∨ (s.low = RANGE_MASK ∧ s.high = RANGE_MASK + 1))

-- ===== THEOREMS =====

/-- C2 counterexample: at the concrete input `total_sum = 0` (reset-state
coder, `low_count = 0`, `high_count = 1`), `CircularRAC::encode_range`
returns normally with coder state and output completely unchanged — the
symbol is silently skipped.  The function has no failure path at all
(`if (total_sum == 0) return;`, circular_rac.hpp line 91), so the claim
that it "fails loudly rather than continuing" is false. -/
theorem C2_counterexample : encodeRange racReset 0 1 0 = racReset := rfl

/-- C2 amended: whenever the distribution total is zero, `encode_range`
returns immediately, leaving the coder state (including its output) exactly
as it was: the symbol is silently skipped and no error is reported. -/
theorem C2_total_zero_silent_skip (s : RacState) (lc hc : ℕ) :
    encodeRange s lc hc 0 = s := rfl

/-- C10 confirmed: `get_output` always invokes `flush`, `flush` appends at
least one byte (the top 8 bits of `low_`, plus a padded partial byte when
one is pending), hence two consecutive `get_output` calls on the same coder
return outputs of strictly increasing length. -/
theorem C10_get_output_strictly_grows (s : RacState) :
    s.output.length + 1 ≤ (racFlush s).output.length ∧
    (racGetOutput s).1.length < (racGetOutput (racGetOutput s).2).1.length := by
  constructor
  · by_cases h : 0 < s.bitCount <;> simp [racFlush, h]
  · by_cases h : 0 < s.bitCount <;> simp [racGetOutput, racFlush, h]

/-- C5 counterexample: from the reset state with the in-range counts
`low_count = 0 < high_count = 512 ≤ total = 1024`, the 64-bit product
`range * high_count = 2 ^ 55 * 512` wraps to `0` mod `2 ^ 64`, so the code
computes `new_high = (0 + 0 - 1) & RANGE_MASK = 2 ^ 55 - 1` instead of the
claimed `low + floor(range * high_count / total) - 1 = 2 ^ 54 - 1`. -/
theorem C5_counterexample :
    rangeNarrow 0 RANGE_MASK 0 512 1024 = (0, RANGE_MASK) ∧
    (0 + (RANGE_MASK - 0 + 1) * 512 / 1024 - 1 = 2 ^ 54 - 1) ∧
    RANGE_MASK ≠ 2 ^ 54 - 1 := by
  refine ⟨by decide, by decide, by decide⟩

/-- C5 amended: provided the 64-bit product `(high - low + 1) * high_count`
does not wrap mod `2 ^ 64` and is at least `total` (so the scaled high edge
does not underflow below `low`), one narrowing step sets exactly
`new_low = low + floor((high - low + 1) * low_count / total)` and
`new_high = low + floor((high - low + 1) * high_count / total) - 1`,
forcing `new_high = new_low + 1` whenever that yields
`new_high ≤ new_low`. -/
theorem C5_narrow_formula (low high lc hc totalSum : ℕ)
    (hlh : low ≤ high) (hhm : high ≤ RANGE_MASK)
    (hcount : lc < hc) (hhc : hc ≤ totalSum)
    (hov : (high - low + 1) * hc < 2 ^ 64)
    (hpos : totalSum ≤ (high - low + 1) * hc) :
    rangeNarrow low high lc hc totalSum =
      if low + (high - low + 1) * hc / totalSum - 1 ≤
          low + (high - low + 1) * lc / totalSum then
        (low + (high - low + 1) * lc / totalSum,
         low + (high - low + 1) * lc / totalSum + 1)
      else
        (low + (high - low + 1) * lc / totalSum,
         low + (high - low + 1) * hc / totalSum - 1) := by
  have hmask : RANGE_MASK = 2 ^ 55 - 1 := by norm_num [RANGE_MASK, RANGE_BITS]
  have ht : 0 < totalSum := lt_of_lt_of_le (Nat.lt_of_le_of_lt (Nat.zero_le lc) hcount) hhc
  set R := high - low + 1 with hR
  have hRpos : 0 < R := Nat.succ_pos _
  have hhm55 : high ≤ 2 ^ 55 - 1 := by rw [hmask] at hhm; exact hhm
  have hrange : (high + (M64 - low) + 1) % M64 = R := by
    have h1 : high + (M64 - low) + 1 = R + M64 := by
      simp only [M64]; omega
    rw [h1, Nat.add_mod_right]
    apply Nat.mod_eq_of_lt
    simp only [M64]; omega
  have hQh1 : 1 ≤ R * hc / totalSum := (Nat.one_le_div_iff ht).mpr hpos
  have hQhR : R * hc / totalSum ≤ R := by
    calc R * hc / totalSum ≤ R * totalSum / totalSum :=
          Nat.div_le_div_right (Nat.mul_le_mul_left R hhc)
    _ = R := Nat.mul_div_cancel R ht
  have hQlR : R * lc / totalSum < R := by
    rw [Nat.div_lt_iff_lt_mul ht]
    calc R * lc < R * totalSum :=
          mul_lt_mul_of_pos_left (lt_of_lt_of_le hcount hhc) hRpos
    _ = R * totalSum := rfl
  have hovl : R * lc < 2 ^ 64 :=
    lt_of_le_of_lt (Nat.mul_le_mul_left R (Nat.le_of_lt hcount)) hov
  have hnh : (low + R * hc % M64 / totalSum + (M64 - 1)) % M64 % 2 ^ 55 =
      low + R * hc / totalSum - 1 := by
    have hmod : R * hc % M64 = R * hc := Nat.mod_eq_of_lt (by simpa [M64] using hov)
    rw [hmod]
    have hsmall : low + R * hc / totalSum - 1 < 2 ^ 55 := by
      have hhigh : low + R * hc / totalSum - 1 ≤ high := by omega
      omega
    have hlt2 : low + R * hc / totalSum - 1 < M64 := by
      simp only [M64]
      exact lt_trans hsmall (by norm_num)
    have h1 : low + R * hc / totalSum + (M64 - 1) =
        (low + R * hc / totalSum - 1) + M64 := by
      simp only [M64]; omega
    rw [h1, Nat.add_mod_right, Nat.mod_eq_of_lt hlt2, Nat.mod_eq_of_lt hsmall]
  have hnl : (low + R * lc % M64 / totalSum) % M64 % 2 ^ 55 =
      low + R * lc / totalSum := by
    have hmod : R * lc % M64 = R * lc := Nat.mod_eq_of_lt (by simpa [M64] using hovl)
    rw [hmod]
    have hsmall : low + R * lc / totalSum < 2 ^ 55 := by
      have hhigh : low + R * lc / totalSum ≤ high := by omega
      omega
    have hlt2 : low + R * lc / totalSum < M64 := by
      simp only [M64]
      exact lt_trans hsmall (by norm_num)
    rw [Nat.mod_eq_of_lt hlt2, Nat.mod_eq_of_lt hsmall]
  simp only [rangeNarrow, hrange, hnh, hnl]

/-- C5 witness: instantiating the amended narrowing formula at the reset
state with `low_count = 0 < high_count = 1 ≤ total = 2` (no 64-bit
overflow), the step yields `(0, 2 ^ 54 - 1)`. -/
theorem C5_narrow_formula_witness :
    rangeNarrow 0 RANGE_MASK 0 1 2 = (0, 2 ^ 54 - 1) := by
  have h := C5_narrow_formula 0 RANGE_MASK 0 1 2 (Nat.zero_le _) (le_refl _)
    (by decide) (by decide) (by decide) (by decide)
  rw [h]
  norm_num [RANGE_MASK, RANGE_BITS]

/-- Soundness of the fuelled forward scan: a returned index lies in the
scanned window `[i, i + n)`, holds a boundary byte, and is the first such
index. -/
theorem fwdScanAux_some_spec (data : List ℕ) :
    ∀ n i j, fwdScanAux data n i = some j →
      i ≤ j ∧ j < i + n ∧ isBoundaryByte (data.getD j 0) = true ∧
      ∀ k, i ≤ k → k < j → isBoundaryByte (data.getD k 0) = false := by
  intro n
  induction n with
  | zero =>
    intro i j h
    exact absurd h (by simp [fwdScanAux])
  | succ n ih =>
    intro i j h
    rw [fwdScanAux] at h
    by_cases hb : isBoundaryByte (data.getD i 0) = true
    · rw [if_pos hb] at h
      obtain rfl : i = j := by simpa using h
      exact ⟨le_refl _, by omega, hb, fun k hk1 hk2 => by omega⟩
    · rw [if_neg hb] at h
      obtain ⟨h1, h2, h3, h4⟩ := ih (i + 1) j h
      refine ⟨by omega, by omega, h3, ?_⟩
      intro k hk1 hk2
      rcases Nat.eq_or_lt_of_le hk1 with rfl | hlt
      · simpa using hb
      · exact h4 k (by omega) hk2

/-- Completeness of the fuelled forward scan: `none` means the whole window
`[i, i + n)` is boundary-free. -/
theorem fwdScanAux_none_spec (data : List ℕ) :
    ∀ n i, fwdScanAux data n i = none →
      ∀ k, i ≤ k → k < i + n → isBoundaryByte (data.getD k 0) = false := by
  intro n
  induction n with
  | zero =>
    intro i _ k hk1 hk2
    omega
  | succ n ih =>
    intro i h k hk1 hk2
    rw [fwdScanAux] at h
    by_cases hb : isBoundaryByte (data.getD i 0) = true
    · rw [if_pos hb] at h
      exact absurd h (by simp)
    · rw [if_neg hb] at h
      rcases Nat.eq_or_lt_of_le hk1 with rfl | hlt
      · simpa using hb
      · exact ih (i + 1) h k (by omega) (by omega)

/-- Window form of `fwdScanAux_some_spec` for `fwdScan`. -/
theorem fwdScan_some_spec (data : List ℕ) (limit i j : ℕ)
    (h : fwdScan data limit i = some j) :
    i ≤ j ∧ j < limit ∧ isBoundaryByte (data.getD j 0) = true ∧
    ∀ k, i ≤ k → k < j → isBoundaryByte (data.getD k 0) = false := by
  obtain ⟨h1, h2, h3, h4⟩ := fwdScanAux_some_spec data (limit - i) i j h
  exact ⟨h1, by omega, h3, h4⟩

/-- Window form of `fwdScanAux_none_spec` for `fwdScan`. -/
theorem fwdScan_none_spec (data : List ℕ) (limit i : ℕ)
    (h : fwdScan data limit i = none) :
    ∀ k, i ≤ k → k < limit → isBoundaryByte (data.getD k 0) = false := by
  intro k hk1 hk2
  exact fwdScanAux_none_spec data (limit - i) i h k hk1 (by omega)

/-- Soundness of the fuelled backward scan: a returned index lies in
`(i - n, i]`, holds a boundary byte, and is the last such index below `i`. -/
theorem bwdScanAux_some_spec (data : List ℕ) :
    ∀ n i j, bwdScanAux data n i = some j →
      j ≤ i ∧ i < j + n ∧ isBoundaryByte (data.getD j 0) = true ∧
      ∀ k, j < k → k ≤ i → isBoundaryByte (data.getD k 0) = false := by
  intro n
  induction n with
  | zero =>
    intro i j h
    exact absurd h (by simp [bwdScanAux])
  | succ n ih =>
    intro i j h
    rw [bwdScanAux] at h
    by_cases hb : isBoundaryByte (data.getD i 0) = true
    · rw [if_pos hb] at h
      obtain rfl : i = j := by simpa using h
      exact ⟨le_refl _, by omega, hb, fun k hk1 hk2 => by omega⟩
    · rw [if_neg hb] at h
      obtain ⟨h1, h2, h3, h4⟩ := ih (i - 1) j h
      by_cases hz : i = 0
      · subst hz
        simp only [Nat.zero_sub] at h1
        obtain rfl : j = 0 := by omega
        rw [h3] at hb
        exact absurd rfl hb
      · refine ⟨by omega, by omega, h3, ?_⟩
        intro k hk1 hk2
        rcases Nat.eq_or_lt_of_le hk2 with rfl | hlt
        · simpa using hb
        · exact h4 k hk1 (by omega)

/-- Completeness of the fuelled backward scan: `none` means the whole
window `(i - n, i]` is boundary-free. -/
theorem bwdScanAux_none_spec (data : List ℕ) :
    ∀ n i, bwdScanAux data n i = none →
      ∀ k, k ≤ i → i < k + n → isBoundaryByte (data.getD k 0) = false := by
  intro n
  induction n with
  | zero =>
    intro i _ k hk1 hk2
    omega
  | succ n ih =>
    intro i h k hk1 hk2
    rw [bwdScanAux] at h
    by_cases hb : isBoundaryByte (data.getD i 0) = true
    · rw [if_pos hb] at h
      exact absurd h (by simp)
    · rw [if_neg hb] at h
      rcases Nat.eq_or_lt_of_le hk1 with rfl | hlt
      · simpa using hb
      · exact ih (i - 1) h k (by omega) (by omega)

/-- Window form of `bwdScanAux_some_spec` for `bwdScan`. -/
theorem bwdScan_some_spec (data : List ℕ) (bl i j : ℕ)
    (h : bwdScan data bl i = some j) :
    bl ≤ j ∧ j ≤ i ∧ isBoundaryByte (data.getD j 0) = true ∧
    ∀ k, j < k → k ≤ i → isBoundaryByte (data.getD k 0) = false := by
  rw [bwdScan] at h
  by_cases hbl : bl ≤ i
  · rw [if_pos hbl] at h
    obtain ⟨h1, h2, h3, h4⟩ := bwdScanAux_some_spec data (i - bl + 1) i j h
    exact ⟨by omega, h1, h3, h4⟩
  · rw [if_neg hbl] at h
    exact absurd h (by simp)

/-- Window form of `bwdScanAux_none_spec` for `bwdScan`. -/
theorem bwdScan_none_spec (data : List ℕ) (bl i : ℕ)
    (h : bwdScan data bl i = none) :
    ∀ k, bl ≤ k → k ≤ i → isBoundaryByte (data.getD k 0) = false := by
  intro k hk1 hk2
  rw [bwdScan] at h
  by_cases hbl : bl ≤ i
  · rw [if_pos hbl] at h
    exact bwdScanAux_none_spec data (i - bl + 1) i h k hk2 (by omega)
  · omega

/-- C7 amended: `find_boundary` returns ONE PAST the boundary byte it finds
(so the boundary byte is kept inside the left-hand frame), not the boundary
offset itself: if the forward window `[target_end, min(target_end + 4096,
size))` contains a boundary byte, the result is (least such index) + 1;
otherwise, if the backward window `[target_end ∸ 4096, target_end)`
contains one, the result is (greatest such index) + 1; otherwise the result
is `target_end` unchanged.  The result never leaves the declared search
windows: it is at most `min(target_end + 4096, size)`, and is either
greater than `target_end ∸ 4096` or exactly `target_end`. -/
theorem C7_find_boundary_characterization (data : List ℕ) (te : ℕ)
    (hte : te ≤ data.length) :
    (∀ j, te ≤ j → j < min (te + 4096) data.length →
        isBoundaryByte (data.getD j 0) = true →
        (∀ k, te ≤ k → k < j → isBoundaryByte (data.getD k 0) = false) →
        findBoundary data te = j + 1) ∧
    ((∀ k, te ≤ k → k < min (te + 4096) data.length →
        isBoundaryByte (data.getD k 0) = false) →
      ∀ j, (if 4096 < te then te - 4096 else 0) ≤ j → j < te →
        isBoundaryByte (data.getD j 0) = true →
        (∀ k, j < k → k < te → isBoundaryByte (data.getD k 0) = false) →
        findBoundary data te = j + 1) ∧
    ((∀ k, (if 4096 < te then te - 4096 else 0) ≤ k →
        k < min (te + 4096) data.length →
        isBoundaryByte (data.getD k 0) = false) →
      findBoundary data te = te) ∧
    findBoundary data te ≤ min (te + 4096) data.length ∧
    ((if 4096 < te then te - 4096 else 0) < findBoundary data te ∨
      findBoundary data te = te) := by
  set lim := min (te + 4096) data.length with hlim
  set bl := (if 4096 < te then te - 4096 else 0) with hbl
  have hbl_le : bl ≤ te := by rw [hbl]; split <;> omega
  have hte_lim : te ≤ lim := by rw [hlim]; omega
  refine ⟨?_, ?_, ?_, ?_, ?_⟩
  · -- clause 1: least forward boundary
    intro j hj1 hj2 hj3 hj4
    cases h : fwdScan data lim te with
    | none =>
      have := fwdScan_none_spec data lim te h j hj1 hj2
      rw [hj3] at this
      exact absurd this (by simp)
    | some jp =>
      obtain ⟨h1, h2, h3, h4⟩ := fwdScan_some_spec data lim te jp h
      have hjj : j = jp := by
        rcases lt_trichotomy j jp with hlt | heq | hgt
        · have := h4 j hj1 hlt
          rw [hj3] at this
          exact absurd this (by simp)
        · exact heq
        · have := hj4 jp h1 hgt
          rw [h3] at this
          exact absurd this (by simp)
      simp only [findBoundary, ← hlim, h, hjj]
  · -- clause 2: forward window empty, greatest backward boundary
    intro hfwd j hj1 hj2 hj3 hj4
    have hne : te ≠ 0 := by omega
    have hfs : fwdScan data lim te = none := by
      cases h : fwdScan data lim te with
      | none => rfl
      | some jp =>
        obtain ⟨h1, h2, h3, _⟩ := fwdScan_some_spec data lim te jp h
        have := hfwd jp h1 h2
        rw [h3] at this
        exact absurd this (by simp)
    cases h : bwdScan data bl (te - 1) with
    | none =>
      have := bwdScan_none_spec data bl (te - 1) h j hj1 (by omega)
      rw [hj3] at this
      exact absurd this (by simp)
    | some jp =>
      obtain ⟨h1, h2, h3, h4⟩ := bwdScan_some_spec data bl (te - 1) jp h
      have hjj : j = jp := by
        rcases lt_trichotomy j jp with hlt | heq | hgt
        · have := hj4 jp hlt (by omega)
          rw [h3] at this
          exact absurd this (by simp)
        · exact heq
        · have := h4 j hgt (by omega)
          rw [hj3] at this
          exact absurd this (by simp)
      simp only [findBoundary, ← hlim, ← hbl, hfs, if_neg hne, h, hjj]
  · -- clause 3: both windows empty
    intro hall
    have hfs : fwdScan data lim te = none := by
      cases h : fwdScan data lim te with
      | none => rfl
      | some jp =>
        obtain ⟨h1, h2, h3, _⟩ := fwdScan_some_spec data lim te jp h
        have := hall jp (by omega) h2
        rw [h3] at this
        exact absurd this (by simp)
    by_cases hz : te = 0
    · simp only [findBoundary, ← hlim, hfs, if_pos hz]
    · have hbs : bwdScan data bl (te - 1) = none := by
        cases h : bwdScan data bl (te - 1) with
        | none => rfl
        | some jp =>
          obtain ⟨h1, h2, h3, _⟩ := bwdScan_some_spec data bl (te - 1) jp h
          have := hall jp h1 (by omega)
          rw [h3] at this
          exact absurd this (by simp)
      simp only [findBoundary, ← hlim, ← hbl, hfs, if_neg hz, hbs]
  · -- upper bound
    cases h : fwdScan data lim te with
    | none =>
      by_cases hz : te = 0
      · simp only [findBoundary, ← hlim, h, if_pos hz]
        omega
      · cases hb : bwdScan data bl (te - 1) with
        | none =>
          simp only [findBoundary, ← hlim, ← hbl, h, if_neg hz, hb]
          omega
        | some jp =>
          obtain ⟨h1, h2, _, _⟩ := bwdScan_some_spec data bl (te - 1) jp hb
          simp only [findBoundary, ← hlim, ← hbl, h, if_neg hz, hb]
          omega
    | some jp =>
      obtain ⟨h1, h2, _, _⟩ := fwdScan_some_spec data lim te jp h
      simp only [findBoundary, ← hlim, h]
      omega
  · -- lower bound
    cases h : fwdScan data lim te with
    | none =>
      by_cases hz : te = 0
      · right
        simp only [findBoundary, ← hlim, h, if_pos hz]
      · cases hb : bwdScan data bl (te - 1) with
        | none =>
          right
          simp only [findBoundary, ← hlim, ← hbl, h, if_neg hz, hb]
        | some jp =>
          obtain ⟨h1, h2, _, _⟩ := bwdScan_some_spec data bl (te - 1) jp hb
          left
          simp only [findBoundary, ← hlim, ← hbl, h, if_neg hz, hb]
          omega
    | some jp =>
      obtain ⟨h1, h2, _, _⟩ := fwdScan_some_spec data lim te jp h
      left
      simp only [findBoundary, ← hlim, h]
      omega

/-- C7 witness: on the three-byte input `[65, 32, 65]` with `target_end = 0`
the least boundary byte in the forward window sits at index 1, and the
characterization yields `find_boundary = 2`. -/
theorem C7_find_boundary_witness : findBoundary [65, 32, 65] 0 = 2 := by
  have h := (C7_find_boundary_characterization [65, 32, 65] 0 (by decide)).1
  exact h 1 (by decide) (by decide) (by decide) (by decide)

/-- C7 counterexample: on the single-byte input `[32]` (one space) with
`target_end = 0`, offset 0 is the unique offset that lies on a
grain-boundary byte, so the claim requires the result 0; the code returns
`0 + 1 = 1` (it returns one past the boundary byte, not the boundary
offset). -/
theorem C7_counterexample :
    findBoundary [32] 0 = 1 ∧ (1 : ℕ) ≠ 0 ∧ isBoundaryByte 32 = true := by
  refine ⟨by decide, by decide, by decide⟩

/-- C6: concrete failing input for `chunk_data` (chunk size 5, the
twenty-byte input `"abc "` + 16 `x`s).  The first iteration emits the frame
`[0, 4)`; from `start = 4` every later target lies past the only boundary
byte (index 3), the backward search returns offset 4, and the loop
re-emits the empty frame `[4, 4)` with `start` stuck at 4 forever: the
first conjunct shows `start = 4` is a fixpoint under any fuel, the second
that the fuelled model of the whole call reports divergence.  The frames
therefore never cover bytes 4..19 and no finite covering sequence exists,
refuting the claim. -/
theorem C6_chunk_data_diverges :
    (∀ fuel, chunkSteps 5 chunkBugInput fuel 4 = none) ∧
    chunkData 5 chunkBugInput = none := by
  constructor
  · intro fuel
    induction fuel with
    | zero => decide
    | succ n ih =>
      have hlen : chunkBugInput.length = 20 := by decide
      have hfb : findBoundary chunkBugInput 9 = 4 := by decide
      simp [chunkSteps, hlen, hfb, ih]
  · decide

/-- From the constructor state of the Examples coder, one `encode` call is
the identity: the 64-bit range `high_ - low_ + 1` wraps to 0, so
`symbol_range = 0`, the interval update restores `low_ = 0`,
`high_ = 2 ^ 64 - 1`, and the renormalization guard
`(low ^ high) < 2 ^ 63` is false immediately. -/
theorem exRacEncode_fixed (symbol totalRange : ℕ) (out : List ℕ) :
    exRacEncode ⟨0, 2 ^ 64 - 1, out⟩ symbol totalRange = ⟨0, 2 ^ 64 - 1, out⟩ := by
  have hr : ((2:ℕ) ^ 64 - 1 + (M64 - 0) + 1) % M64 = 0 := by norm_num [M64]
  have hguard : ¬ ((0:ℕ) ^^^ (2 ^ 64 - 1) < 2 ^ 63) := by
    rw [Nat.zero_xor]
    norm_num
  simp only [exRacEncode, hr, Nat.zero_div, Nat.mul_zero, Nat.zero_add]
  have hnh : ((0:ℕ) % M64 + (M64 - 1)) % M64 = 2 ^ 64 - 1 := by norm_num [M64]
  have hnl : (0:ℕ) % M64 = 0 := by norm_num
  rw [hnh, hnl, show (64:ℕ) = 63 + 1 from rfl, exRenorm, if_neg hguard]

/-- Folding any list of symbols through the Examples coder from its
constructor state leaves the state (and output) unchanged. -/
theorem exRacEncode_foldl_fixed (l : List ℕ) (out : List ℕ) :
    l.foldl (fun r k => exRacEncode r k 256) ⟨0, 2 ^ 64 - 1, out⟩ =
      ⟨0, 2 ^ 64 - 1, out⟩ := by
  induction l with
  | nil => rfl
  | cons a l ih => rw [List.foldl_cons, exRacEncode_fixed]; exact ih

/-- Processing a chunk trains the mixer but leaves the Examples coder in
its constructor state. -/
theorem exProcessChunk_rac_fixed (t : MixerTables) (out chunk : List ℕ) :
    exProcessChunk (t, ⟨0, 2 ^ 64 - 1, out⟩) chunk =
      (trainTables t chunk, ⟨0, 2 ^ 64 - 1, out⟩) := by
  simp only [exProcessChunk]
  rw [exRacEncode_foldl_fixed]

/-- The chunk fold of `exCompress` never moves the coder away from its
constructor state. -/
theorem exCompress_fold_rac_fixed (d : List ℕ) :
    ∀ (frames : List (ℕ × ℕ)) (t : MixerTables) (out : List ℕ),
      (frames.foldl
        (fun st fr => exProcessChunk st ((d.drop fr.1).take (fr.2 - fr.1)))
        (t, ⟨0, 2 ^ 64 - 1, out⟩)).2 = ⟨0, 2 ^ 64 - 1, out⟩ := by
  intro frames
  induction frames with
  | nil => intro t out; rfl
  | cons fr frames ih =>
    intro t out
    rw [List.foldl_cons, exProcessChunk_rac_fixed]
    exact ih _ _

/-- Whenever the chunker terminates, the Examples compressor emits the
empty byte vector. -/
theorem exCompress_output_empty (d : List ℕ) (frames : List (ℕ × ℕ))
    (h : chunkData HORIZON_FRAME_SIZE d = some frames) :
    exCompress d = some [] := by
  simp only [exCompress, h, exRacInit]
  rw [exCompress_fold_rac_fixed]

/-- C1: `GQECompressor::compress` of the Examples kernel produces the empty
output for every input whose chunk loop terminates — in particular for the
two distinct one-byte inputs `[0]` and `[1]` — because the coder's 64-bit
range wraps to zero on the very first `encode` and no bit is ever emitted
(and `get_output` performs no flush).  Consequently no decompression
function can satisfy `decompress (compress D) (len D) = D` for all `D`:
the two inputs collide. -/
theorem C1_compress_not_invertible :
    exCompress [0] = some [] ∧ exCompress [1] = some [] ∧
    ¬ ∃ deco : Option (List ℕ) → ℕ → List ℕ,
        ∀ d : List ℕ, deco (exCompress d) d.length = d := by
  have h0 : exCompress [0] = some [] :=
    exCompress_output_empty [0] [(0, 1)] (by decide)
  have h1 : exCompress [1] = some [] :=
    exCompress_output_empty [1] [(0, 1)] (by decide)
  refine ⟨h0, h1, ?_⟩
  rintro ⟨deco, hdeco⟩
  have e0 := hdeco [0]
  have e1 := hdeco [1]
  rw [h0] at e0
  rw [h1] at e1
  simp only [List.length_cons, List.length_nil] at e0 e1
  have : ([0] : List ℕ) = [1] := e0.symm.trans e1
  simp at this

set_option maxRecDepth 40000 in
/-- C3 counterexample: training on the single-byte input `[5]` touches and
requantizes the entry at hash 0 of the order-1 table (the "no context"
hash), and the quantized probability it stores for the never-observed
symbol 0 is `trunc(255 * (0 + 1) / (1 + 256)) = 0`, not `≥ 1`. -/
theorem C3_counterexample :
    (((trainTables initTables [5]).tbl 0 0).map (fun p => p 0)) = some 0 := by
  decide

/-- C3 amended: a touched-then-requantized entry stores
`trunc(255 * (count + 1) / (total + 256))` with no lower clamp, so every
symbol with raw count 0 in that entry receives quantized probability
exactly 0 (observed symbols may also quantize to 0 once the entry total is
large, since the code has no `≥ 1` floor at all). -/
theorem C3_unseen_symbol_prob_zero (data : List ℕ) (ctx h b : ℕ)
    (probs : ℕ → ℕ)
    (hl : (trainTables initTables data).tbl ctx h = some probs)
    (hc : countsAt data ctx h b = 0) : probs b = 0 := by
  simp only [trainTables] at hl
  by_cases ht : 0 < totalAt data ctx h
  · rw [if_pos ht] at hl
    have hp : probs = fun b => quantProb (countsAt data ctx h b) (totalAt data ctx h) :=
      (Option.some.injEq _ _ ▸ hl).symm
    rw [hp]
    simp only [quantProb, hc]
    apply Nat.div_eq_of_lt
    omega
  · rw [if_neg ht] at hl
    exact absurd hl (by simp [initTables])

set_option maxRecDepth 40000 in
/-- C3 witness: instantiating the amended statement at the trained entry of
`C3_counterexample` — symbol 0 has raw count 0 there and quantizes to 0. -/
theorem C3_unseen_symbol_prob_zero_witness :
    countsAt [5] 0 0 0 = 0 ∧
    (fun b => quantProb (countsAt [5] 0 0 b) (totalAt [5] 0 0)) 0 = 0 := by
  refine ⟨by decide, C3_unseen_symbol_prob_zero [5] 0 0 0
    (fun b => quantProb (countsAt [5] 0 0 b) (totalAt [5] 0 0)) ?_ (by decide)⟩
  simp only [trainTables]
  rw [if_pos (by decide : 0 < totalAt [5] 0 0)]

set_option maxRecDepth 400000 in
/-- C4: compression is not causal.  The inputs `c4A = [5,0,…,0]` and
`c4B = [5,6,…,6]` agree on their first byte, yet the predicted
distribution used at position 1 differs (`mixed_probs[0]` is 1 for `c4A`
and 0 for `c4B`): `GeometricParallelMixer::train` is run on the whole
chunk before `predict_batch`, so the prediction at a position depends on
bytes at strictly later positions, contradicting the claim. -/
theorem C4_prediction_depends_on_later_bytes :
    c4A.take 1 = c4B.take 1 ∧
    mixedProbs (trainTables initTables c4A) c4A 1 0 = 1 ∧
    mixedProbs (trainTables initTables c4B) c4B 1 0 = 0 := by
  refine ⟨by decide, by decide, by decide⟩

/-- After a single one-byte allocation the stored coherence factor drops
astronomically below the 0.9 threshold: `64 ^ (2/3) = 16` and
`ENTROPY_DENSITY_FACTOR ≈ 6e8`, so `coherence ≈ 1.05e-10`. -/
theorem coherenceFactor_64_lt : coherenceFactor 64 < 9 / 10 := by
  have hpow : ((64 : ℕ) : ℝ) ^ ((2 : ℝ) / 3) = 16 := by
    have h4 : ((64 : ℕ) : ℝ) = (4 : ℝ) ^ ((3 : ℕ) : ℝ) := by
      rw [Real.rpow_natCast]
      norm_num
    rw [h4, ← Real.rpow_mul (by norm_num : (0 : ℝ) ≤ 4)]
    have he : ((3 : ℕ) : ℝ) * (2 / 3) = ((2 : ℕ) : ℝ) := by norm_num
    rw [he, Real.rpow_natCast]
    norm_num
  have hGpos : (0 : ℝ) < NEWTON_G := by rw [NEWTON_G]; norm_num
  have hden : (0 : ℝ) < 8 * Real.pi * NEWTON_G := by positivity
  have hED : (1 : ℝ) / 9 < entropyDensity ((64 : ℕ) : ℝ) := by
    rw [entropyDensity, ENTROPY_DENSITY_FACTOR, hpow]
    rw [div_mul_eq_mul_div, one_mul, lt_div_iff₀ hden]
    have hpi : Real.pi ≤ 4 := Real.pi_le_four
    rw [NEWTON_G] at *
    nlinarith [Real.pi_pos]
  have hEDpos : (0 : ℝ) < entropyDensity ((64 : ℕ) : ℝ) :=
    lt_trans (by norm_num) hED
  rw [coherenceFactor, div_lt_div_iff₀ (by linarith) (by norm_num : (0:ℝ) < 10)]
  push_cast at hED ⊢
  linarith

/-- C8: the entropy-free scope guard fails to arm after any prior
allocation, so an allocation attempted while the guard is alive SUCCEEDS
silently instead of failing loudly.  Concretely: a fresh arena allocates
one byte (total becomes 64 after cache-line alignment), the coherence
factor drops to about `1.05e-10 < 0.9`, so `EntropyFreeScope` concludes
`was_in_compression_mode_ = true` and never sets `entropy_free_mode_`;
the next `allocate` while the guard is alive returns memory with no
error. -/
theorem C8_scope_guard_ineffective :
    arenaAllocate arenaInit 1 = .ok ⟨64, false⟩ ∧
    (scopeEnter ⟨64, false⟩).1.entropyFreeMode = false ∧
    (arenaAllocate (scopeEnter ⟨64, false⟩).1 1).isOk = true := by
  have hscope : scopeEnter ⟨64, false⟩ = (⟨64, false⟩, true) := by
    rw [scopeEnter, if_pos coherenceFactor_64_lt]
  refine ⟨rfl, ?_, ?_⟩
  · rw [hscope]
  · rw [hscope]
    rfl

/-- The narrowing step always yields a nonempty interval whose low edge is
masked below `2 ^ 55`; the high edge is masked too except when the clamp
fires, in which case it is `new_low + 1`. -/
theorem rangeNarrow_cases (low high lc hc totalSum : ℕ) :
    ∃ nl nh, rangeNarrow low high lc hc totalSum = (nl, nh) ∧
      nl < 2 ^ 55 ∧ nl < nh ∧ (nh < 2 ^ 55 ∨ nh = nl + 1) := by
  simp only [rangeNarrow]
  split
  · next h =>
    refine ⟨_, _, rfl, Nat.mod_lt _ (by norm_num), by omega, Or.inr rfl⟩
  · next h =>
    refine ⟨_, _, rfl, Nat.mod_lt _ (by norm_num), by omega,
      Or.inl (Nat.mod_lt _ (by norm_num))⟩

/-- `write_bit` never touches the interval bounds or the pending-bit
counter. -/
theorem writeBit_interval (s : RacState) (b : ℕ) :
    (writeBit s b).low = s.low ∧ (writeBit s b).high = s.high ∧
      (writeBit s b).underflowCount = s.underflowCount := by
  simp only [writeBit]
  split <;> exact ⟨rfl, rfl, rfl⟩

/-- Emitting pending bits never touches the interval bounds. -/
theorem writeBitRep_interval (b : ℕ) :
    ∀ n (s : RacState), (writeBitRep s b n).low = s.low ∧
      (writeBitRep s b n).high = s.high := by
  intro n
  induction n with
  | zero => intro s; exact ⟨rfl, rfl⟩
  | succ n ih =>
    intro s
    obtain ⟨h1, h2⟩ := ih (writeBit s b)
    obtain ⟨e1, e2, _⟩ := writeBit_interval s b
    exact ⟨h1.trans e1, h2.trans e2⟩

/-- The renormalization loop preserves `RacBounded`: both branches shift a
sub-`2 ^ 54` half-interval back to full width, and the overflow shape
`(RANGE_MASK, RANGE_MASK + 1)` satisfies neither loop guard. -/
theorem racRenorm_bounded : ∀ (n : ℕ) (s : RacState),
    RacBounded s → RacBounded (racRenorm n s) := by
  intro n
  induction n with
  | zero => intro s h; exact h
  | succ n ih =>
    intro s h
    obtain ⟨hlh, hcase⟩ := h
    rw [racRenorm]
    by_cases h1 : s.low / HALF_RANGE % 2 = s.high / HALF_RANGE % 2
    · rw [if_pos h1]
      apply ih
      obtain ⟨e1, e2⟩ :=
        writeBitRep_interval (1 - s.low / HALF_RANGE % 2)
          (writeBit s (s.low / HALF_RANGE % 2)).underflowCount
          (writeBit s (s.low / HALF_RANGE % 2))
      obtain ⟨f1, f2, _⟩ := writeBit_interval s (s.low / HALF_RANGE % 2)
      constructor
      · show (writeBitRep _ _ _).low * 2 % 2 ^ 55 <
          (writeBitRep _ _ _).high * 2 % 2 ^ 55 + 1
        rw [e1, e2, f1, f2]
        simp only [HALF_RANGE, RANGE_BITS, RANGE_MASK] at h1 hcase ⊢
        omega
      · show (writeBitRep _ _ _).high * 2 % 2 ^ 55 + 1 ≤ RANGE_MASK ∨ _
        rw [e2, f2]
        left
        simp only [HALF_RANGE, RANGE_BITS, RANGE_MASK] at h1 hcase ⊢
        omega
    · rw [if_neg h1]
      by_cases h2 : FIRST_QUARTER ≤ s.low ∧ s.high < THIRD_QUARTER
      · rw [if_pos h2]
        apply ih
        constructor
        · show (s.low + (M64 - FIRST_QUARTER)) % M64 * 2 % 2 ^ 55 <
            (s.high + (M64 - FIRST_QUARTER)) % M64 * 2 % 2 ^ 55 + 1
          simp only [FIRST_QUARTER, THIRD_QUARTER, RANGE_BITS, RANGE_MASK,
            M64] at h2 hcase ⊢
          omega
        · show (s.high + (M64 - FIRST_QUARTER)) % M64 * 2 % 2 ^ 55 + 1 ≤
            RANGE_MASK ∨ _
          left
          simp only [FIRST_QUARTER, THIRD_QUARTER, RANGE_BITS, RANGE_MASK,
            M64] at h2 hcase ⊢
          omega
      · rw [if_neg h2]
        exact ⟨hlh, hcase⟩

/-- One `encode_range` call preserves `RacBounded`. -/
theorem encodeRange_bounded (s : RacState) (lc hc totalSum : ℕ)
    (h : RacBounded s) : RacBounded (encodeRange s lc hc totalSum) := by
  unfold encodeRange
  by_cases ht : totalSum = 0
  · rw [if_pos ht]
    exact h
  · rw [if_neg ht]
    apply racRenorm_bounded
    obtain ⟨nl, nh, heq, h55, hlt, hcase⟩ :=
      rangeNarrow_cases s.low s.high lc hc totalSum
    rw [heq]
    refine ⟨hlt, ?_⟩
    show nh ≤ RANGE_MASK ∨ (nl = RANGE_MASK ∧ nh = RANGE_MASK + 1)
    simp only [RANGE_MASK, RANGE_BITS]
    omega

/-- C9 counterexample: the invariant as claimed is violated on a concrete
reachable trace.  From the reset state, `encode_range(2, 259, 513)`
followed by `encode_range(1022, 0, 514)` (both with positive total) drives
the coder to `(low, high) = (2 ^ 55 - 1, 2 ^ 55)`: `new_low` lands exactly
on `RANGE_MASK`, the collapse clamp pushes `new_high` to `RANGE_MASK + 1`,
and the renormalization loop exits immediately, so `high` ends up outside
`[0, 2 ^ 55 - 1]`. -/
theorem C9_counterexample :
    RacReachable (encodeRange (encodeRange racReset 2 259 513) 1022 0 514) ∧
    (encodeRange (encodeRange racReset 2 259 513) 1022 0 514).high =
      RANGE_MASK + 1 ∧
    ¬ ((encodeRange (encodeRange racReset 2 259 513) 1022 0 514).high ≤
        RANGE_MASK) := by
  refine ⟨RacReachable.step _ 1022 0 514
    (RacReachable.step _ 2 259 513 RacReachable.reset (by norm_num))
    (by norm_num), by decide, by decide⟩

/-- C9 amended: starting from the reset state, after every sequence of
`encode_range` calls the state satisfies `low < high`,
`low ∈ [0, 2 ^ 55 - 1]`, and `high ∈ [0, 2 ^ 55]` — one more than the
claimed upper bound, the value `2 ^ 55` being reachable exactly through
the collapse clamp when the masked `new_low` equals `RANGE_MASK`. -/
theorem C9_interval_invariant (s : RacState) (hs : RacReachable s) :
    s.low < s.high ∧ s.low ≤ RANGE_MASK ∧ s.high ≤ RANGE_MASK + 1 := by
  have key : RacBounded s := by
    induction hs with
    | reset =>
      refine ⟨by norm_num [racReset, RANGE_MASK, RANGE_BITS], Or.inl (le_refl _)⟩
    | step s lc hc totalSum hs ht ih => exact encodeRange_bounded s lc hc totalSum ih
  obtain ⟨h1, h2⟩ := key
  simp only [RANGE_MASK, RANGE_BITS] at h2 ⊢
  omega

/-- C9 witness: the amended invariant instantiated at the reset state. -/
theorem C9_interval_invariant_witness :
    racReset.low < racReset.high ∧ racReset.low ≤ RANGE_MASK ∧
      racReset.high ≤ RANGE_MASK + 1 :=
  C9_interval_invariant racReset RacReachable.reset

end GQE
